import Mathlib

/-!
Verification of the Mosaist contact-degree subsystem (headers under
`src/include/`): the `contactList` record store (`mstcondeg.h`), the
`ProximitySearch` spatial grid (`msttypes.h`) and the `ConFind` engine caches
(`mstcondeg.h`).  C++ `mstreal` (`double`) is modelled as `ℚ`; residue
pointers are modelled as identities (`rid`) carrying the structural index
returned by `getResidueIndex()`.  Method bodies that live in the
repository's `.cpp` files (absent here, only headers are available) are
modelled from the specification and marked `Modelled from the spec:` in
their doc comments.
-/

namespace Mosaist

/-- C++ `mstreal` (a `double`) modelled as `ℚ`. -/
abbrev mstreal : Type := ℚ

/-- A `Residue*`: pointer identity `rid` plus the structural index that
`getResidueIndex()` reports. -/
structure Residue where
  rid : Nat
  getResidueIndex : Int
deriving DecidableEq, Repr

/-- One contact record: the C++ `contactList` pushes one entry onto each of
the parallel vectors `resi`, `resj`, `degrees`, `infos`; the four parallel
fields are represented as a single record. -/
structure ContactRec where
  src : Residue
  dst : Residue
  degree : mstreal
  info : String
deriving DecidableEq, Repr

/-- The comparator `contactList::contComp::operator()` from `mstcondeg.h`
(lines 54-64): compare first residues' structural indices, falling back to
the second residues' indices on a tie. -/
def contComp (lhs rhs : Residue × Residue) : Bool :=
  if lhs.1.getResidueIndex = rhs.1.getResidueIndex then
    decide (lhs.2.getResidueIndex < rhs.2.getResidueIndex)
  else
    decide (lhs.1.getResidueIndex < rhs.1.getResidueIndex)

/-- The key `contComp` actually compares: the pair of structural indices. -/
def pairKey (p : Residue × Residue) : Int × Int :=
  (p.1.getResidueIndex, p.2.getResidueIndex)

/-- `std::set<pair<Residue*, Residue*>, contComp>::insert`: the list is kept
in strictly increasing `contComp` order; inserting an element equivalent to
a present one (neither strictly before nor after it) leaves the set
unchanged, keeping the existing element. -/
def setInsert (p : Residue × Residue) :
    List (Residue × Residue) → List (Residue × Residue)
  | [] => [p]
  | q :: l =>
    if contComp p q then p :: q :: l
    else if contComp q p then q :: setInsert p l
    else q :: l

/-- State of a C++ `contactList`: the record store (parallel vectors),
the `inContact` nested map (as an association list, most recent entry
first, mirroring `map` assignment which overwrites) and the
`orderedContacts` set (as a `contComp`-sorted list). -/
structure contactList where
  recs : List ContactRec
  inContact : List ((Residue × Residue) × Nat)
  orderedContacts : List (Residue × Residue)
deriving DecidableEq, Repr

/-- A fresh `contactList()`. -/
def emptyCL : contactList := ⟨[], [], []⟩

/-- `contactList::addContact` (`mstcondeg.h` lines 25-37): push the record,
set `inContact[resi][resj]` (and the reverse entry when non-directional) to
the new index, and insert the pair into `orderedContacts`, swapped to
smaller-index-first only when non-directional. -/
def contactList.addContact (cl : contactList) (ri rj : Residue)
    (d : mstreal) (inf : String) (directional : Bool) : contactList :=
  let n := cl.recs.length
  { recs := cl.recs ++ [⟨ri, rj, d, inf⟩]
    inContact :=
      (if directional then [] else [((rj, ri), n)]) ++ (((ri, rj), n) :: cl.inContact)
    orderedContacts :=
      if (!directional) && decide (rj.getResidueIndex < ri.getResidueIndex) then
        setInsert (rj, ri) cl.orderedContacts
      else
        setInsert (ri, rj) cl.orderedContacts }

/-- `contactList::size()`. -/
def contactList.size (cl : contactList) : Nat := cl.recs.length

/-- `std::map` lookup over the association-list model: first (most recent)
entry with the given key wins, matching overwrite-on-assign semantics. -/
def mapFind {κ ν : Type} [DecidableEq κ] : List (κ × ν) → κ → Option ν
  | [], _ => none
  | e :: l, k => if e.1 = k then some e.2 else mapFind l k

/-- `vector::operator[]` modelled totally: `listGet l i` is `some` of the
`i`-th element when `i` is in range. -/
def listGet {α : Type} : List α → Nat → Option α
  | [], _ => none
  | a :: _, 0 => some a
  | _ :: l, n + 1 => listGet l n

/-- Modelled from the spec: the body of `contactList::areInContact` is not
under `src/` (only its declaration in `mstcondeg.h` line 50); per spec §4.2
it is O(1) membership via the `inContact` lookup table. -/
def contactList.areInContact (cl : contactList) (A B : Residue) : Bool :=
  (mapFind cl.inContact (A, B)).isSome

/-- Modelled from the spec: the body of
`contactList::degree(Residue*, Residue*)` is not under `src/` (only its
declaration in `mstcondeg.h` line 46); per spec §4.2 it resolves the pair
through the O(1) `inContact` table and reads the stored record's degree. -/
def contactList.degreePair (cl : contactList) (A B : Residue) : Option mstreal :=
  (mapFind cl.inContact (A, B)).bind fun n => (listGet cl.recs n).map ContactRec.degree

/-- Modelled from the spec: the body of `contactList::getOrderedContacts`
is not under `src/` (only its declaration in `mstcondeg.h` line 49); it
returns the contents of the `orderedContacts` set in its iteration
(comparator) order. -/
def contactList.getOrderedContacts (cl : contactList) : List (Residue × Residue) :=
  cl.orderedContacts

/-- The arguments of one `addContact` call. -/
structure AddCall where
  src : Residue
  dst : Residue
  degree : mstreal
  info : String
  directional : Bool
deriving DecidableEq, Repr

/-- Perform one recorded `addContact` call. -/
def applyCall (cl : contactList) (c : AddCall) : contactList :=
  cl.addContact c.src c.dst c.degree c.info c.directional

/-- Build a `contactList` from a sequence of `addContact` calls. -/
def buildCL (calls : List AddCall) : contactList :=
  calls.foldl applyCall emptyCL

/-- The pair a call inserts into `orderedContacts` (swapped to canonical
order only when non-directional, per `addContact` lines 32-36). -/
def insertedPair (c : AddCall) : Residue × Residue :=
  if (!c.directional) && decide (c.dst.getResidueIndex < c.src.getResidueIndex) then
    (c.dst, c.src)
  else
    (c.src, c.dst)

/-- A call registers the pair (A, B) in the `inContact` table when it was
added exactly so, or in reverse when non-directional. -/
def callMatches (A B : Residue) (c : AddCall) : Prop :=
  (c.src = A ∧ c.dst = B) ∨ (c.directional = false ∧ c.src = B ∧ c.dst = A)

instance (A B : Residue) (c : AddCall) : Decidable (callMatches A B c) := by
  unfold callMatches; infer_instance

/-- Pair each list element with its position, starting from `i` (the loop
counter of the C++ vector traversals). -/
def withIndex {α : Type} (i : Nat) : List α → List (Nat × α)
  | [] => []
  | a :: l => (i, a) :: withIndex (i + 1) l

/-- Modelled from the spec: the body of `contactList::sortByDegree` is not
under `src/` (only its declaration, `mstcondeg.h` line 48, commented
"sorts the contact list by contact degree, highest to lowest"); per spec
§4.2 it is a stable descending sort of all parallel fields together, so the
records are sorted as units by degree (descending), ties by original
position. -/
def degRel (x y : Nat × ContactRec) : Prop :=
  y.2.degree < x.2.degree ∨ (x.2.degree = y.2.degree ∧ x.1 ≤ y.1)

instance : DecidableRel degRel := by
  unfold degRel; infer_instance

instance : IsTotal (Nat × ContactRec) degRel where
  total x y := by
    unfold degRel
    rcases lt_trichotomy x.2.degree y.2.degree with h | h | h
    · exact Or.inr (Or.inl h)
    · rcases Nat.le_total x.1 y.1 with hn | hn
      · exact Or.inl (Or.inr ⟨h, hn⟩)
      · exact Or.inr (Or.inr ⟨h.symm, hn⟩)
    · exact Or.inl (Or.inl h)

instance : IsTrans (Nat × ContactRec) degRel where
  trans x y z hxy hyz := by
    unfold degRel at *
    rcases hxy with h1 | ⟨e1, n1⟩
    · rcases hyz with h2 | ⟨e2, n2⟩
      · exact Or.inl (h2.trans h1)
      · exact Or.inl (e2 ▸ h1)
    · rcases hyz with h2 | ⟨e2, n2⟩
      · exact Or.inl (by rw [e1]; exact h2)
      · exact Or.inr ⟨e1.trans e2, n1.trans n2⟩

/-- `contactList::sortByDegree`: stable descending sort of the records
(see `degRel` for provenance). -/
def contactList.sortByDegree (cl : contactList) : contactList :=
  { cl with recs := (List.insertionSort degRel (withIndex 0 cl.recs)).map Prod.snd }

/-! ### ProximitySearch (`msttypes.h` lines 507-567)

Only the class declaration is under `src/`; the method bodies live in the
missing `msttypes.cpp`, so the grid arithmetic below is modelled from the
spec (§3 "Bucket Grid", §4.1).  A point is a 3D coordinate; `pointTags` is
the parallel integer-tag vector. -/

/-- A 3D point (`CartesianPoint` restricted to 3D, as the grid uses it). -/
abbrev Point3 : Type := ℚ × ℚ × ℚ

/-- Squared Euclidean distance; comparisons against `dmin`/`dmax` are made
in squared form to stay within `ℚ`. -/
def dist2 (p q : Point3) : ℚ :=
  (p.1 - q.1) ^ 2 + (p.2.1 - q.2.1) ^ 2 + (p.2.2 - q.2.2) ^ 2

/-- State of a `ProximitySearch`: grid extents, per-axis bucket count `N`,
and the parallel point/tag lists.  The bucket contents are not stored: by
the spec §3 invariant every inserted point lives in exactly the bucket
derived from its coordinates, so buckets are recovered by `bucketIdx`. -/
structure ProximitySearch where
  xlo : ℚ
  ylo : ℚ
  zlo : ℚ
  xhi : ℚ
  yhi : ℚ
  zhi : ℚ
  N : Nat
  pointList : List Point3
  pointTags : List Int
deriving DecidableEq, Repr

/-- Modelled from the spec: bodies of `ProximitySearch::pointBucket` and
`limitIndex` are not under `src/`; per spec §3 the volume is an N×N×N
partition, so a coordinate maps to `⌊(v - lo)/binWidth⌋`, clamped into
`[0, N-1]` (`limitIndex`). -/
def bucketIdx (lo hi : ℚ) (N : Nat) (v : ℚ) : Int :=
  max 0 (min ((N : Int) - 1) (Int.floor ((v - lo) / ((hi - lo) / (N : ℚ)))))

/-- `ProximitySearch::pointBucket` on the three axes. -/
def ProximitySearch.pointBucket (ps : ProximitySearch) (p : Point3) : Int × Int × Int :=
  (bucketIdx ps.xlo ps.xhi ps.N p.1,
   bucketIdx ps.ylo ps.yhi ps.N p.2.1,
   bucketIdx ps.zlo ps.zhi ps.N p.2.2)

/-- Modelled from the spec: the body of `ProximitySearch::pointsWithin`
(declared at `msttypes.h` line 539) is not under `src/`; per spec §4.1 it
visits only the buckets intersecting the query shell (the axis-aligned
bucket range spanned by `center ± dmax`) and then filters by exact
distance, returning the indices of the surviving points (see
`pointsWithin` below; `queryLo`/`queryHi` are the corners of the shell's
bounding box). -/
def queryLo (c : Point3) (dmax : ℚ) : Point3 :=
  (c.1 - dmax, c.2.1 - dmax, c.2.2 - dmax)

/-- The corner of the query shell's bounding box farthest along each axis. -/
def queryHi (c : Point3) (dmax : ℚ) : Point3 :=
  (c.1 + dmax, c.2.1 + dmax, c.2.2 + dmax)

/-- Whether bucket `b` lies in the axis-aligned bucket range spanned by the
query shell's bounding box — the buckets the search visits. -/
def bucketInRange (blo bhi b : Int × Int × Int) : Prop :=
  blo.1 ≤ b.1 ∧ b.1 ≤ bhi.1 ∧ blo.2.1 ≤ b.2.1 ∧ b.2.1 ≤ bhi.2.1 ∧
    blo.2.2 ≤ b.2.2 ∧ b.2.2 ≤ bhi.2.2

instance (blo bhi b : Int × Int × Int) : Decidable (bucketInRange blo bhi b) := by
  unfold bucketInRange; infer_instance

def ProximitySearch.pointsWithin (ps : ProximitySearch) (c : Point3)
    (dmin dmax : ℚ) : List Nat :=
  (withIndex 0 ps.pointList).filterMap fun e =>
    if bucketInRange (ps.pointBucket (queryLo c dmax)) (ps.pointBucket (queryHi c dmax))
          (ps.pointBucket e.2) ∧
        (dmin ^ 2 ≤ dist2 e.2 c ∧ dist2 e.2 c ≤ dmax ^ 2) then
      some e.1
    else
      none

/-- The brute-force reference search: filter every inserted point by exact
distance alone (what the spec calls the `N = 1` degenerate linear scan). -/
def bruteWithin (ps : ProximitySearch) (c : Point3) (dmin dmax : ℚ) : List Nat :=
  (withIndex 0 ps.pointList).filterMap fun e =>
    if dmin ^ 2 ≤ dist2 e.2 c ∧ dist2 e.2 c ≤ dmax ^ 2 then some e.1 else none

/-! ### ConFind (`mstcondeg.h` lines 74-180)

The engine's method bodies live in the missing `mstcondeg.cpp`; the header
supplies the private cache maps (lines 152-179) and the inline
`clearFreedom` (line 136).  Rotamer-level quantities are modelled from the
spec where the bodies are absent. -/

/-- A candidate rotamer surviving upfront self/backbone-clash pruning, as
the contact-degree pipeline sees it for a fixed pair (A, B): its a-priori
propensity weight and whether it is eliminated by clashes attributable to
the partner residue B (spec §4.3 steps 4-6). -/
structure Rotamer where
  weight : mstreal
  clashesWithPartner : Bool
deriving DecidableEq, Repr

/-- Modelled from the spec: the body of
`ConFind::weightOfAvailableRotamers` (declared `mstcondeg.h` line 142,
"computes the total weight of all rotamers available at this position") is
not under `src/`; it sums the a-priori weights of the residue's candidate
rotamers. -/
def ConFind.weightOfAvailableRotamers (rots : List Rotamer) : mstreal :=
  (rots.map Rotamer.weight).sum

/-- Modelled from the spec: the body of `ConFind::contactDegree` (declared
`mstcondeg.h` line 95) is not under `src/`; per spec §4.3 steps 5-6 it is
the fraction of A's rotamer probability mass eliminated by clashes
attributable to B, normalized by `weightOfAvailableRotamers`. -/
def ConFind.contactDegree (rots : List Rotamer) : mstreal :=
  ((rots.filter fun r => r.clashesWithPartner).map Rotamer.weight).sum /
    ConFind.weightOfAvailableRotamers rots

/-- The private per-residue caches of a `ConFind` engine (`mstcondeg.h`
lines 152-179).  `std::map`s are association lists; `rotamerID*` values are
opaque identities (`Nat`); the per-residue
`DecoratedProximitySearch<rotamerID*>*` is the base grid plus its parallel
payload table.  The nested `interference` map is keyed by the ordered
residue pair. -/
structure ConFind where
  permanentContacts : List (Residue × List Int)
  fractionPruned : List (Residue × mstreal)
  freedom : List (Residue × mstreal)
  numLibraryRotamers : List (Residue × Int)
  survivingRotamers : List (Residue × List Nat)
  degrees : List ((Residue × Residue) × mstreal)
  collProb : List (Residue × List (Nat × mstreal))
  rotamerHeavySC : List (Residue × (ProximitySearch × List Nat))
  interference : List ((Residue × Residue) × mstreal)
  updateCollProb : List (Residue × Bool)

/-- `ConFind::clearFreedom` (`mstcondeg.h` line 136, inline in the header):
`freedom.clear()`. -/
def ConFind.clearFreedom (cf : ConFind) : ConFind :=
  { cf with freedom := [] }

/-- Modelled from the spec: the bodies of the mutating public query
operations of `ConFind` (`cache`, `getContacts`, `getFreedom`,
`getCrowdedness`, `getInterference`, `getBBInteraction`, ...) are in the
missing `mstcondeg.cpp`; per spec §4.3, caching is monotonic — a query
transparently caches exactly the residues it needs, appending their new
entries to the per-residue cache maps, and never removes or overwrites an
entry already present.  A batch of appended entries is one value of this
type. -/
structure CacheUpdate where
  permanentContacts : List (Residue × List Int)
  fractionPruned : List (Residue × mstreal)
  freedom : List (Residue × mstreal)
  numLibraryRotamers : List (Residue × Int)
  survivingRotamers : List (Residue × List Nat)
  degrees : List ((Residue × Residue) × mstreal)
  collProb : List (Residue × List (Nat × mstreal))
  rotamerHeavySC : List (Residue × (ProximitySearch × List Nat))
  interference : List ((Residue × Residue) × mstreal)
  updateCollProb : List (Residue × Bool)

/-- The effect of any mutating public query operation on the engine caches
(see `CacheUpdate` for provenance): the batch of entries for newly cached
residues is appended behind the existing entries, so existing bindings stay
in place and keep winning the (first-match) lookup. -/
def ConFind.publicQueryStep (cf : ConFind) (upd : CacheUpdate) : ConFind :=
  { permanentContacts := cf.permanentContacts ++ upd.permanentContacts
    fractionPruned := cf.fractionPruned ++ upd.fractionPruned
    freedom := cf.freedom ++ upd.freedom
    numLibraryRotamers := cf.numLibraryRotamers ++ upd.numLibraryRotamers
    survivingRotamers := cf.survivingRotamers ++ upd.survivingRotamers
    degrees := cf.degrees ++ upd.degrees
    collProb := cf.collProb ++ upd.collProb
    rotamerHeavySC := cf.rotamerHeavySC ++ upd.rotamerHeavySC
    interference := cf.interference ++ upd.interference
    updateCollProb := cf.updateCollProb ++ upd.updateCollProb }

/-- Modelled from the spec: the bodies of the `ConFind::getInterference`
overloads (`mstcondeg.h` lines 112-113) are not under `src/`; per spec §4.3
step 8 and §8, called on residues `lst` it reports the directional
sidechain-to-backbone contacts read from the shared `interference` table
whose source (the residue whose rotamers clash) lies in `lst`, thresholded
by `incut`. -/
def ConFind.getInterference (cf : ConFind) (lst : List Residue)
    (incut : mstreal) : List ContactRec :=
  cf.interference.filterMap fun e =>
    if e.1.1 ∈ lst ∧ incut < e.2 then some ⟨e.1.1, e.1.2, e.2, ""⟩ else none

/-- Modelled from the spec: the bodies of the `ConFind::getInterfering`
overloads (`mstcondeg.h` lines 114-115) are not under `src/`; per spec §4.3
step 8 and §8, called on residues `lst` it reports the contacts from the
same shared `interference` table whose destination (the residue whose
backbone interferes) lies in `lst`, thresholded by `incut`. -/
def ConFind.getInterfering (cf : ConFind) (lst : List Residue)
    (incut : mstreal) : List ContactRec :=
  cf.interference.filterMap fun e =>
    if e.1.2 ∈ lst ∧ incut < e.2 then some ⟨e.1.1, e.1.2, e.2, ""⟩ else none

/-- A residue as `getBBInteraction` sees it: its identity, its chain and
position within the chain (for the flanking test), and the coordinates of
its present backbone atoms (N, Cα, C, O). -/
structure BBResidue where
  res : Residue
  chainID : Nat
  chainPos : Int
  bbAtoms : List Point3
deriving DecidableEq, Repr

/-- Whether any backbone atom of `A` is within `dcut` of any backbone atom
of `B` (spec §4.3 step 9); distances compared in squared form. -/
def bbCloseEnough (A B : BBResidue) (dcut : ℚ) : Bool :=
  A.bbAtoms.any fun a => B.bbAtoms.any fun b => decide (dist2 a b < dcut ^ 2)

/-- Modelled from the spec: the bodies of the `ConFind::getBBInteraction`
overloads (`mstcondeg.h` lines 126-128) are not under `src/`; per the
header comment (lines 117-123) and spec §4.3 step 9 it reports, among the
candidate residues, those with a backbone atom within `dcut` of the query's
backbone, always excluding residues within `ignoreFlanking` chain positions
of the query on its own chain. -/
def ConFind.getBBInteraction (res : BBResidue) (dcut : ℚ)
    (ignoreFlanking : Nat) (candidates : List BBResidue) : List BBResidue :=
  candidates.filter fun B =>
    !(decide (B.chainID = res.chainID) &&
        decide ((B.chainPos - res.chainPos).natAbs ≤ ignoreFlanking)) &&
      bbCloseEnough res B dcut

/-- Strict order underlying the `orderedContacts` set. -/
def ltPair (p q : Residue × Residue) : Prop := contComp p q = true

/-! ### Concrete values used to exercise the theorems. -/

/-- A residue with structural index 1. -/
def rA : Residue := ⟨0, 1⟩

/-- A residue with structural index 0. -/
def rB : Residue := ⟨1, 0⟩

/-- A residue with structural index 2. -/
def rC : Residue := ⟨2, 2⟩

/-- Two `addContact` calls: one non-directional, one directional. -/
def callsEx : List AddCall := [⟨rA, rB, 1, "", false⟩, ⟨rC, rA, 2, "", true⟩]

/-- The same two calls in the other order. -/
def callsEx2 : List AddCall := [⟨rC, rA, 2, "", true⟩, ⟨rA, rB, 1, "", false⟩]

/-- A single directional call whose source has the larger structural
index. -/
def callsDirEx : List AddCall := [⟨rA, rB, 1, "", true⟩]

/-- Two surviving rotamers: weight 1 (clashing with the partner) and
weight 2 (not clashing). -/
def rotsEx : List Rotamer := [⟨1, true⟩, ⟨2, false⟩]

/-- A grid over `[0,10]³` with bucket count `n` holding the origin and the
point `(3,4,0)` (distance 5 from the origin). -/
def psGridEx (n : Nat) : ProximitySearch :=
  ⟨0, 0, 0, 10, 10, 10, n, [(0, 0, 0), (3, 4, 0)], [0, 1]⟩

/-- The origin, as a query center. -/
def cEx : Point3 := (0, 0, 0)

/-- A residue at chain position 0 with one backbone atom at the origin. -/
def bbEx0 : BBResidue := ⟨⟨0, 0⟩, 0, 0, [(0, 0, 0)]⟩

/-- The chain-adjacent residue (position 1) with a backbone atom at the
same location, so the two backbones are trivially close. -/
def bbEx1 : BBResidue := ⟨⟨1, 1⟩, 0, 1, [(0, 0, 0)]⟩

/-- A residue aliasing `rE`'s structural index 5 under a distinct pointer
identity. -/
def rD : Residue := ⟨3, 5⟩

/-- A residue with the same structural index 5 as `rD` but a different
pointer identity. -/
def rE : Residue := ⟨4, 5⟩

/-- Two directional calls whose inserted pairs are distinct but share the
structural-index key (5, 1): `(rD, rA)` and `(rE, rA)`. -/
def callsAliasEx : List AddCall := [⟨rD, rA, 1, "", true⟩, ⟨rE, rA, 1, "", true⟩]

/-- The same two aliasing calls in the other order. -/
def callsAliasEx2 : List AddCall := [⟨rE, rA, 1, "", true⟩, ⟨rD, rA, 1, "", true⟩]

/-- An empty one-bucket grid over the unit cube, used as a concrete
per-residue rotamer index value. -/
def psEmpty : ProximitySearch := ⟨0, 0, 0, 1, 1, 1, 1, [], []⟩

/-- A concrete engine state in which residue `rA` is fully cached. -/
def cfEx : ConFind :=
  ⟨[(rA, [0])], [(rA, 1)], [(rA, 1)], [(rA, 3)], [(rA, [0, 1])],
    [((rA, rB), 1)], [(rA, [(0, 1)])], [(rA, (psEmpty, [0]))],
    [((rA, rB), 1)], [(rA, true)]⟩

/-- A concrete cache batch for residue `rC`, as appended by a public query
that caches `rC`. -/
def updEx : CacheUpdate :=
  ⟨[(rC, [1])], [(rC, 0)], [(rC, 1)], [(rC, 2)], [(rC, [2])],
    [((rC, rA), 1)], [(rC, [(1, 1)])], [(rC, (psEmpty, [1]))],
    [((rC, rA), 1)], [(rC, false)]⟩

/-! ## Helper lemmas -/

theorem take_len_append {α : Type} (l m : List α) : (l ++ m).take l.length = l := by
  induction l with
  | nil => simp
  | cons a l ih => simp [ih]

theorem listGet_append_length {α : Type} (l : List α) (a : α) :
    listGet (l ++ [a]) l.length = some a := by
  induction l with
  | nil => rfl
  | cons b l ih => simpa [listGet] using ih

theorem mapFind_isSome_iff {κ ν : Type} [DecidableEq κ]
    (l : List (κ × ν)) (k : κ) :
    (mapFind l k).isSome = true ↔ ∃ e ∈ l, e.1 = k := by
  induction l with
  | nil => simp [mapFind]
  | cons e l ih =>
    by_cases h : e.1 = k
    · simp [mapFind, h]
    · simp only [mapFind, if_neg h, ih, List.mem_cons]
      constructor
      · rintro ⟨f, hf, hk⟩
        exact ⟨f, Or.inr hf, hk⟩
      · rintro ⟨f, hf | hf, hk⟩
        · exact absurd (hf ▸ hk) h
        · exact ⟨f, hf, hk⟩

theorem map_snd_withIndex {α : Type} (l : List α) :
    ∀ i, (withIndex i l).map Prod.snd = l := by
  induction l with
  | nil => intro i; rfl
  | cons a l ih => intro i; simp [withIndex, ih]

/-! ## C10: `addContact` appends one record, keeps earlier records in
place, and points the pair lookup at the newest record. -/

/-- C10: every `addContact` call grows `size()` by exactly one, leaves the
earlier records at their original indices, makes the `inContact` table map
the added pair to the index of the new (last) record, and thereby makes the
pair-keyed degree lookup report the most recently added degree. -/
theorem addContact_appends_latest_wins (cl : contactList) (A B : Residue)
    (d : mstreal) (s : String) (dir : Bool) :
    (cl.addContact A B d s dir).size = cl.size + 1 ∧
    (cl.addContact A B d s dir).recs.take cl.recs.length = cl.recs ∧
    mapFind (cl.addContact A B d s dir).inContact (A, B) = some cl.recs.length ∧
    (cl.addContact A B d s dir).degreePair A B = some d := by
  have hfind : mapFind (cl.addContact A B d s dir).inContact (A, B) =
      some cl.recs.length := by
    cases dir with
    | true => simp [contactList.addContact, mapFind]
    | false =>
      by_cases h : ((B, A) : Residue × Residue) = (A, B)
      · simp [contactList.addContact, mapFind, h]
      · simp [contactList.addContact, mapFind, h]
  refine ⟨?_, ?_, hfind, ?_⟩
  · simp [contactList.addContact, contactList.size]
  · simp only [contactList.addContact]
    exact take_len_append cl.recs _
  · have hget : listGet (cl.addContact A B d s dir).recs cl.recs.length =
        some ⟨A, B, d, s⟩ := by
      simp only [contactList.addContact]
      exact listGet_append_length cl.recs _
    simp [contactList.degreePair, hfind, hget]

/-! ## C7: `clearFreedom` empties only the freedom memo, and no public
query operation invalidates a fully collided residue's cache. -/

theorem mapFind_append_some {κ ν : Type} [DecidableEq κ]
    (l m : List (κ × ν)) (k : κ) (v : ν) (h : mapFind l k = some v) :
    mapFind (l ++ m) k = some v := by
  induction l with
  | nil => cases h
  | cons e l ih =>
    rw [List.cons_append]
    by_cases he : e.1 = k
    · rw [mapFind] at h ⊢
      rw [if_pos he] at h ⊢
      exact h
    · rw [mapFind] at h ⊢
      rw [if_neg he] at h ⊢
      exact ih h

/-- C7: `ConFind::clearFreedom` removes only the memoized freedom scores,
leaving every other per-residue cache (permanent contacts, pruned
fractions, rotamer counts, surviving rotamers, degree maps, collision
probability tables, rotamer spatial indexes, interference maps, update
flags) unchanged; and no mutating public query operation — modelled per
spec §4.3 as an append-only cache extension `publicQueryStep` — silently
invalidates a fully collided residue R's cached data: every binding R
already has (surviving rotamers, collision probabilities, degrees,
interference, pruned fraction, rotamer index) still looks up to the same
value afterwards. -/
theorem clearFreedom_frame (cf : ConFind) (upd : CacheUpdate) (R S : Residue)
    (srot : List Nat) (cprob : List (Nat × mstreal)) (deg intf fp : mstreal)
    (rsc : ProximitySearch × List Nat)
    (h1 : mapFind cf.survivingRotamers R = some srot)
    (h2 : mapFind cf.collProb R = some cprob)
    (h3 : mapFind cf.degrees (R, S) = some deg)
    (h4 : mapFind cf.interference (R, S) = some intf)
    (h5 : mapFind cf.fractionPruned R = some fp)
    (h6 : mapFind cf.rotamerHeavySC R = some rsc) :
    (cf.clearFreedom.freedom = [] ∧
      cf.clearFreedom.permanentContacts = cf.permanentContacts ∧
      cf.clearFreedom.fractionPruned = cf.fractionPruned ∧
      cf.clearFreedom.numLibraryRotamers = cf.numLibraryRotamers ∧
      cf.clearFreedom.survivingRotamers = cf.survivingRotamers ∧
      cf.clearFreedom.degrees = cf.degrees ∧
      cf.clearFreedom.collProb = cf.collProb ∧
      cf.clearFreedom.rotamerHeavySC = cf.rotamerHeavySC ∧
      cf.clearFreedom.interference = cf.interference ∧
      cf.clearFreedom.updateCollProb = cf.updateCollProb) ∧
    (mapFind (cf.publicQueryStep upd).survivingRotamers R = some srot ∧
      mapFind (cf.publicQueryStep upd).collProb R = some cprob ∧
      mapFind (cf.publicQueryStep upd).degrees (R, S) = some deg ∧
      mapFind (cf.publicQueryStep upd).interference (R, S) = some intf ∧
      mapFind (cf.publicQueryStep upd).fractionPruned R = some fp ∧
      mapFind (cf.publicQueryStep upd).rotamerHeavySC R = some rsc) :=
  ⟨⟨rfl, rfl, rfl, rfl, rfl, rfl, rfl, rfl, rfl, rfl⟩,
    mapFind_append_some _ _ _ _ h1, mapFind_append_some _ _ _ _ h2,
    mapFind_append_some _ _ _ _ h3, mapFind_append_some _ _ _ _ h4,
    mapFind_append_some _ _ _ _ h5, mapFind_append_some _ _ _ _ h6⟩

/-- C7 witness: the concrete engine state `cfEx` (in which `rA` is fully
cached) after the public query batch `updEx` that caches `rC`. -/
theorem clearFreedom_frame_witness :
    (cfEx.clearFreedom.freedom = [] ∧
      cfEx.clearFreedom.permanentContacts = cfEx.permanentContacts ∧
      cfEx.clearFreedom.fractionPruned = cfEx.fractionPruned ∧
      cfEx.clearFreedom.numLibraryRotamers = cfEx.numLibraryRotamers ∧
      cfEx.clearFreedom.survivingRotamers = cfEx.survivingRotamers ∧
      cfEx.clearFreedom.degrees = cfEx.degrees ∧
      cfEx.clearFreedom.collProb = cfEx.collProb ∧
      cfEx.clearFreedom.rotamerHeavySC = cfEx.rotamerHeavySC ∧
      cfEx.clearFreedom.interference = cfEx.interference ∧
      cfEx.clearFreedom.updateCollProb = cfEx.updateCollProb) ∧
    (mapFind (cfEx.publicQueryStep updEx).survivingRotamers rA = some [0, 1] ∧
      mapFind (cfEx.publicQueryStep updEx).collProb rA = some [(0, 1)] ∧
      mapFind (cfEx.publicQueryStep updEx).degrees (rA, rB) = some 1 ∧
      mapFind (cfEx.publicQueryStep updEx).interference (rA, rB) = some 1 ∧
      mapFind (cfEx.publicQueryStep updEx).fractionPruned rA = some 1 ∧
      mapFind (cfEx.publicQueryStep updEx).rotamerHeavySC rA = some (psEmpty, [0])) :=
  clearFreedom_frame cfEx updEx rA rB [0, 1] [(0, 1)] 1 1 1 (psEmpty, [0])
    (by decide) (by decide) (by decide) (by decide) (by decide) (by decide)

/-! ## C1: contact degree is a fraction in [0, 1]. -/

theorem clash_mass_le_total (rots : List Rotamer)
    (h : ∀ r ∈ rots, 0 ≤ r.weight) :
    ((rots.filter fun r => r.clashesWithPartner).map Rotamer.weight).sum ≤
      (rots.map Rotamer.weight).sum := by
  induction rots with
  | nil => simp
  | cons a l ih =>
    have ha : 0 ≤ a.weight := h a (List.mem_cons_self a l)
    have hl : ∀ r ∈ l, 0 ≤ r.weight := fun r hr => h r (List.mem_cons_of_mem a hr)
    by_cases hc : a.clashesWithPartner = true
    · simp only [List.filter_cons, hc, if_pos, List.map_cons, List.sum_cons]
      exact add_le_add_left (ih hl) _
    · simp only [List.filter_cons, hc, if_neg, List.map_cons, List.sum_cons]
      calc ((l.filter fun r => r.clashesWithPartner).map Rotamer.weight).sum
          ≤ (l.map Rotamer.weight).sum := ih hl
        _ ≤ a.weight + (l.map Rotamer.weight).sum := le_add_of_nonneg_left ha

theorem weight_sum_nonneg (rots : List Rotamer)
    (h : ∀ r ∈ rots, 0 ≤ r.weight) : 0 ≤ (rots.map Rotamer.weight).sum := by
  induction rots with
  | nil => simp
  | cons a l ih =>
    have ha : 0 ≤ a.weight := h a (List.mem_cons_self a l)
    have hl : ∀ r ∈ l, 0 ≤ r.weight := fun r hr => h r (List.mem_cons_of_mem a hr)
    simpa using add_nonneg ha (ih hl)

/-- C1: for candidate rotamers with non-negative a-priori weights, the
contact degree — the clash-eliminated mass normalized by
`weightOfAvailableRotamers` over the surviving (post-pruning) candidates —
lies between 0 and 1 inclusive. -/
theorem contactDegree_mem_unit (rots : List Rotamer)
    (h : ∀ r ∈ rots, 0 ≤ r.weight) :
    0 ≤ ConFind.contactDegree rots ∧ ConFind.contactDegree rots ≤ 1 := by
  have hfilter : ∀ r ∈ rots.filter fun r => r.clashesWithPartner, 0 ≤ r.weight :=
    fun r hr => h r (List.mem_of_mem_filter hr)
  have hE : 0 ≤ ((rots.filter fun r => r.clashesWithPartner).map Rotamer.weight).sum :=
    weight_sum_nonneg _ hfilter
  have hT : 0 ≤ (rots.map Rotamer.weight).sum := weight_sum_nonneg _ h
  have hle := clash_mass_le_total rots h
  unfold ConFind.contactDegree ConFind.weightOfAvailableRotamers
  rcases eq_or_lt_of_le hT with hT0 | hT0
  · have hE0 : ((rots.filter fun r => r.clashesWithPartner).map Rotamer.weight).sum = 0 :=
      le_antisymm (hT0 ▸ hle) hE
    rw [hE0, ← hT0]
    norm_num
  · exact ⟨div_nonneg hE hT, (div_le_one hT0).mpr hle⟩

/-- C1 witness: the theorem applied to the concrete rotamer set `rotsEx`. -/
theorem contactDegree_mem_unit_witness :
    0 ≤ ConFind.contactDegree rotsEx ∧ ConFind.contactDegree rotsEx ≤ 1 :=
  contactDegree_mem_unit rotsEx (by decide)

/-! ## C9: `getInterference` and `getInterfering` report the same value. -/

/-- C9: for a directional interference relationship between A and B (a
fraction `v` of A's rotamers clash with B's backbone), the contact
`(A, B, v)` appears in `getInterference` queried on A exactly when it
appears in `getInterfering` queried on B: both read the single shared
`interference` table, so the two reports carry the same numeric value. -/
theorem interference_value_shared (cf : ConFind) (A B : Residue)
    (v incut : mstreal) :
    (⟨A, B, v, ""⟩ : ContactRec) ∈ cf.getInterference [A] incut ↔
    (⟨A, B, v, ""⟩ : ContactRec) ∈ cf.getInterfering [B] incut := by
  unfold ConFind.getInterference ConFind.getInterfering
  simp only [List.mem_filterMap, Option.ite_none_right_eq_some,
    Option.some.injEq, ContactRec.mk.injEq, List.mem_singleton]
  constructor
  · rintro ⟨e, he, ⟨hsA, hlt⟩, hs, hd, hv, -⟩
    exact ⟨e, he, ⟨hd, hlt⟩, hs, hd, hv, trivial⟩
  · rintro ⟨e, he, ⟨hdB, hlt⟩, hs, hd, hv, -⟩
    exact ⟨e, he, ⟨hs, hlt⟩, hs, hd, hv, trivial⟩

/-! ## C8: flanking residues are never reported by `getBBInteraction`. -/

/-- C8: a residue on the query's own chain within `ignoreFlanking` chain
positions of it (in particular a chain-adjacent residue i±1 when
`ignoreFlanking = 1`) is never reported by `getBBInteraction`, regardless
of how close the backbone atoms are. -/
theorem getBBInteraction_excludes_flanking (res B : BBResidue) (dcut : ℚ)
    (ignoreFlanking : Nat) (cands : List BBResidue)
    (hchain : B.chainID = res.chainID)
    (hpos : (B.chainPos - res.chainPos).natAbs ≤ ignoreFlanking) :
    B ∉ ConFind.getBBInteraction res dcut ignoreFlanking cands := by
  intro hmem
  have hcond := (List.mem_filter.mp hmem).2
  have h1 : decide (B.chainID = res.chainID) = true := decide_eq_true hchain
  have h2 : decide ((B.chainPos - res.chainPos).natAbs ≤ ignoreFlanking) = true :=
    decide_eq_true hpos
  rw [h1, h2] at hcond
  simp at hcond

/-- C8 witness: the chain-adjacent residue `bbEx1` (position 1, same chain
as `bbEx0` at position 0) sits at zero distance from `bbEx0`'s backbone yet
is not reported with `ignoreFlanking = 1`. -/
theorem getBBInteraction_excludes_flanking_witness :
    bbEx1 ∉ ConFind.getBBInteraction bbEx0 10 1 [bbEx1] :=
  getBBInteraction_excludes_flanking bbEx0 bbEx1 10 1 [bbEx1] (by decide) (by decide)

/-! ## C3: `sortByDegree` is a stable descending sort of the records. -/

/-- C3: `sortByDegree` permutes the records (hence all parallel fields
together, and each projected field list) so that the multiset of records
is preserved, the degree sequence is non-increasing, and records of equal
degree keep their original relative order (their original positions, made
explicit by `withIndex`, increase along the sorted list). -/
theorem sortByDegree_stable_desc (cl : contactList) :
    List.Perm cl.sortByDegree.recs cl.recs ∧
    List.Pairwise (fun a b : ContactRec => b.degree ≤ a.degree) cl.sortByDegree.recs ∧
    List.Perm (List.insertionSort degRel (withIndex 0 cl.recs)) (withIndex 0 cl.recs) ∧
    List.Pairwise (fun x y : Nat × ContactRec => x.2.degree = y.2.degree → x.1 ≤ y.1)
      (List.insertionSort degRel (withIndex 0 cl.recs)) ∧
    cl.sortByDegree.recs = (List.insertionSort degRel (withIndex 0 cl.recs)).map Prod.snd ∧
    List.Perm (cl.sortByDegree.recs.map ContactRec.src) (cl.recs.map ContactRec.src) ∧
    List.Perm (cl.sortByDegree.recs.map ContactRec.dst) (cl.recs.map ContactRec.dst) ∧
    List.Perm (cl.sortByDegree.recs.map ContactRec.degree) (cl.recs.map ContactRec.degree) ∧
    List.Perm (cl.sortByDegree.recs.map ContactRec.info) (cl.recs.map ContactRec.info) := by
  have hpermIdx : List.Perm (List.insertionSort degRel (withIndex 0 cl.recs))
      (withIndex 0 cl.recs) := List.perm_insertionSort degRel _
  have hrecs : cl.sortByDegree.recs =
      (List.insertionSort degRel (withIndex 0 cl.recs)).map Prod.snd := rfl
  have hmap : (withIndex 0 cl.recs).map Prod.snd = cl.recs := map_snd_withIndex cl.recs 0
  have hperm : List.Perm cl.sortByDegree.recs cl.recs := by
    rw [hrecs]
    have h := hpermIdx.map Prod.snd
    rwa [hmap] at h
  have hsorted : List.Pairwise degRel (List.insertionSort degRel (withIndex 0 cl.recs)) :=
    List.sorted_insertionSort degRel _
  have hdesc : List.Pairwise (fun a b : ContactRec => b.degree ≤ a.degree)
      cl.sortByDegree.recs := by
    rw [hrecs]
    refine List.pairwise_map.mpr (hsorted.imp ?_)
    intro x y hxy
    rcases hxy with h | ⟨h, _⟩
    · exact le_of_lt h
    · exact le_of_eq h.symm
  have hstable : List.Pairwise (fun x y : Nat × ContactRec =>
      x.2.degree = y.2.degree → x.1 ≤ y.1)
      (List.insertionSort degRel (withIndex 0 cl.recs)) := by
    refine hsorted.imp ?_
    intro x y hxy he
    rcases hxy with h | ⟨_, h⟩
    · exact absurd (he ▸ h) (lt_irrefl _)
    · exact h
  exact ⟨hperm, hdesc, hpermIdx, hstable, hrecs, hperm.map _, hperm.map _,
    hperm.map _, hperm.map _⟩

/-! ## C6: `areInContact` is true exactly for added pairs. -/

theorem areInContact_step (cl : contactList) (c : AddCall) (A B : Residue) :
    (applyCall cl c).areInContact A B = true ↔
    callMatches A B c ∨ cl.areInContact A B = true := by
  unfold applyCall contactList.addContact contactList.areInContact callMatches
  rw [mapFind_isSome_iff, mapFind_isSome_iff]
  cases hdir : c.directional <;> simp [hdir, Prod.ext_iff] <;> aesop

/-- C6: `areInContact(A, B)` on a contact list built by any sequence of
`addContact` calls is true exactly when some call added the pair (A, B) in
that orientation, or added (B, A) non-directionally. -/
theorem areInContact_iff_added (calls : List AddCall) (A B : Residue) :
    (buildCL calls).areInContact A B = true ↔ ∃ c ∈ calls, callMatches A B c := by
  suffices h : ∀ cl : contactList, (calls.foldl applyCall cl).areInContact A B = true ↔
      (∃ c ∈ calls, callMatches A B c) ∨ cl.areInContact A B = true by
    rw [buildCL, h emptyCL]
    simp [contactList.areInContact, emptyCL, mapFind]
  induction calls with
  | nil => intro cl; simp
  | cons c calls ih =>
    intro cl
    rw [List.foldl_cons, ih (applyCall cl c), areInContact_step]
    simp only [List.mem_cons]
    constructor
    · rintro (⟨e, he, hm⟩ | hm | hold)
      · exact Or.inl ⟨e, Or.inr he, hm⟩
      · exact Or.inl ⟨c, Or.inl rfl, hm⟩
      · exact Or.inr hold
    · rintro (⟨e, he | he, hm⟩ | hold)
      · exact Or.inr (Or.inl (he ▸ hm))
      · exact Or.inl ⟨e, he, hm⟩
      · exact Or.inr (Or.inr hold)

/-! ## C2: the ordered contact set. -/

theorem contComp_iff (p q : Residue × Residue) :
    contComp p q = true ↔
    (pairKey p).1 < (pairKey q).1 ∨
      ((pairKey p).1 = (pairKey q).1 ∧ (pairKey p).2 < (pairKey q).2) := by
  unfold contComp pairKey
  by_cases h : p.1.getResidueIndex = q.1.getResidueIndex <;> simp [h]

theorem ltPair_trans {p q r : Residue × Residue} (h1 : ltPair p q)
    (h2 : ltPair q r) : ltPair p r := by
  unfold ltPair at *
  rw [contComp_iff] at *
  omega

theorem ltPair_irrefl (p : Residue × Residue) : ¬ ltPair p p := by
  unfold ltPair
  rw [contComp_iff]
  omega

theorem ltPair_asymm {p q : Residue × Residue} (h : ltPair p q) : ¬ ltPair q p := by
  unfold ltPair at *
  rw [contComp_iff] at *
  omega

theorem eq_key_of_incomp {p q : Residue × Residue} (h1 : ¬ ltPair p q)
    (h2 : ¬ ltPair q p) : pairKey p = pairKey q := by
  unfold ltPair at *
  rw [contComp_iff] at h1 h2
  have : (pairKey p).1 = (pairKey q).1 ∧ (pairKey p).2 = (pairKey q).2 := by omega
  exact Prod.ext_iff.mpr this

theorem mem_setInsert_sub {x p : Residue × Residue} :
    ∀ {l : List (Residue × Residue)}, x ∈ setInsert p l → x = p ∨ x ∈ l := by
  intro l
  induction l with
  | nil => simp [setInsert]
  | cons q l ih =>
    intro hx
    rw [setInsert] at hx
    split at hx
    · rcases List.mem_cons.mp hx with h | h
      · exact Or.inl h
      · exact Or.inr h
    · split at hx
      · rcases List.mem_cons.mp hx with h | h
        · exact Or.inr (List.mem_cons.mpr (Or.inl h))
        · rcases ih h with h2 | h2
          · exact Or.inl h2
          · exact Or.inr (List.mem_cons.mpr (Or.inr h2))
      · exact Or.inr hx

theorem sorted_setInsert (p : Residue × Residue) :
    ∀ (l : List (Residue × Residue)), List.Pairwise ltPair l →
    List.Pairwise ltPair (setInsert p l) := by
  intro l
  induction l with
  | nil => intro _; simp [setInsert, List.pairwise_singleton]
  | cons q l ih =>
    intro hs
    rcases List.pairwise_cons.mp hs with ⟨hq, hl⟩
    rw [setInsert]
    split
    · next hpq =>
      refine List.pairwise_cons.mpr ⟨?_, hs⟩
      intro x hx
      rcases List.mem_cons.mp hx with h | h
      · exact h ▸ hpq
      · exact ltPair_trans hpq (hq x h)
    · split
      · next hqp =>
        refine List.pairwise_cons.mpr ⟨?_, ih hl⟩
        intro x hx
        rcases mem_setInsert_sub hx with h | h
        · exact h ▸ hqp
        · exact hq x h
      · exact hs

theorem mem_setInsert_iff (p : Residue × Residue) :
    ∀ (l : List (Residue × Residue)), List.Pairwise ltPair l →
    (∀ z ∈ l, pairKey z = pairKey p → z = p) →
    ∀ x, x ∈ setInsert p l ↔ x = p ∨ x ∈ l := by
  intro l
  induction l with
  | nil => intro _ _ x; simp [setInsert]
  | cons q l ih =>
    intro hs hfun x
    rcases List.pairwise_cons.mp hs with ⟨hq, hl⟩
    constructor
    · exact mem_setInsert_sub
    · intro hx
      rw [setInsert]
      split
      · rcases hx with h | h
        · exact List.mem_cons.mpr (Or.inl h)
        · exact List.mem_cons.mpr (Or.inr h)
      · next hpq =>
        split
        · next hqp =>
          rcases hx with h | h
          · refine List.mem_cons.mpr (Or.inr ?_)
            rw [ih hl (fun z hz hk => hfun z (List.mem_cons.mpr (Or.inr hz)) hk) x]
            exact Or.inl h
          · rcases List.mem_cons.mp h with h2 | h2
            · exact List.mem_cons.mpr (Or.inl h2)
            · refine List.mem_cons.mpr (Or.inr ?_)
              rw [ih hl (fun z hz hk => hfun z (List.mem_cons.mpr (Or.inr hz)) hk) x]
              exact Or.inr h2
        · next hqp =>
          have hkey : pairKey q = pairKey p :=
            eq_key_of_incomp (fun h => hqp h) (fun h => hpq h)
          have hqep : q = p := hfun q (List.mem_cons_self q l) hkey
          rcases hx with h | h
          · exact List.mem_cons.mpr (Or.inl (h.trans hqep.symm))
          · exact h

theorem sorted_eq_of_mem_iff {l₁ l₂ : List (Residue × Residue)}
    (h₁ : List.Pairwise ltPair l₁) (h₂ : List.Pairwise ltPair l₂)
    (hm : ∀ x, x ∈ l₁ ↔ x ∈ l₂) : l₁ = l₂ := by
  haveI : IsAntisymm (Residue × Residue) ltPair :=
    ⟨fun a b hab hba => absurd hba (ltPair_asymm hab)⟩
  have nd₁ : l₁.Nodup := h₁.imp fun {a b} hab => by
    intro he
    exact absurd (he ▸ hab) (ltPair_irrefl _)
  have nd₂ : l₂.Nodup := h₂.imp fun {a b} hab => by
    intro he
    exact absurd (he ▸ hab) (ltPair_irrefl _)
  exact List.eq_of_perm_of_sorted ((List.perm_ext_iff_of_nodup nd₁ nd₂).mpr hm) h₁ h₂

theorem orderedContacts_applyCall (cl : contactList) (c : AddCall) :
    (applyCall cl c).orderedContacts = setInsert (insertedPair c) cl.orderedContacts := by
  unfold applyCall contactList.addContact insertedPair
  by_cases h : ((!c.directional) &&
      decide (c.dst.getResidueIndex < c.src.getResidueIndex)) = true <;>
    simp [h]

theorem orderedContacts_foldl (calls : List AddCall) :
    ∀ cl : contactList, (calls.foldl applyCall cl).orderedContacts =
      calls.foldl (fun l c => setInsert (insertedPair c) l) cl.orderedContacts := by
  induction calls with
  | nil => intro cl; rfl
  | cons c calls ih =>
    intro cl
    rw [List.foldl_cons, List.foldl_cons, ih, orderedContacts_applyCall]

theorem sorted_ocFold (calls : List AddCall) :
    ∀ l : List (Residue × Residue), List.Pairwise ltPair l →
    List.Pairwise ltPair (calls.foldl (fun l c => setInsert (insertedPair c) l) l) := by
  induction calls with
  | nil => intro l h; exact h
  | cons c calls ih =>
    intro l h
    rw [List.foldl_cons]
    exact ih _ (sorted_setInsert _ _ h)

theorem mem_ocFold (calls : List AddCall) :
    ∀ l : List (Residue × Residue), List.Pairwise ltPair l →
    (∀ x y : Residue × Residue,
      (x ∈ l ∨ x ∈ calls.map insertedPair) → (y ∈ l ∨ y ∈ calls.map insertedPair) →
      pairKey x = pairKey y → x = y) →
    ∀ x, x ∈ calls.foldl (fun l c => setInsert (insertedPair c) l) l ↔
      x ∈ l ∨ x ∈ calls.map insertedPair := by
  induction calls with
  | nil => intro l _ _ x; simp
  | cons c calls ih =>
    intro l hs hfun x
    rw [List.foldl_cons]
    have hsub : ∀ z : Residue × Residue, z ∈ setInsert (insertedPair c) l →
        z ∈ l ∨ z ∈ (c :: calls).map insertedPair := by
      intro z hz
      rcases mem_setInsert_sub hz with h | h
      · exact Or.inr (List.mem_map.mpr ⟨c, List.mem_cons_self c calls, h.symm⟩)
      · exact Or.inl h
    have hdom : ∀ z : Residue × Residue,
        (z ∈ setInsert (insertedPair c) l ∨ z ∈ calls.map insertedPair) →
        (z ∈ l ∨ z ∈ (c :: calls).map insertedPair) := by
      intro z hz
      rcases hz with h | h
      · exact hsub z h
      · exact Or.inr (by rw [List.map_cons]; exact List.mem_cons.mpr (Or.inr h))
    have ih2 := ih (setInsert (insertedPair c) l) (sorted_setInsert _ _ hs)
      (fun x y hx hy hk => hfun x y (hdom x hx) (hdom y hy) hk) x
    rw [ih2]
    have hfun0 : ∀ z ∈ l, pairKey z = pairKey (insertedPair c) → z = insertedPair c := by
      intro z hz hk
      exact hfun z (insertedPair c) (Or.inl hz)
        (Or.inr (List.mem_map.mpr ⟨c, List.mem_cons_self c calls, rfl⟩)) hk
    rw [mem_setInsert_iff (insertedPair c) l hs hfun0 x, List.map_cons, List.mem_cons]
    tauto

/-- C2 counterexample, in two parts.  First, the directional call
`addContact(rA, rB, 1, "", true)` with `rA` of structural index 1 and `rB`
of index 0 puts the pair `(rA, rB)` — larger index first — into the
ordered set, so `getOrderedContacts` does not return only canonicalized
(smaller-index-first) pairs for directional additions.  Second, for the
two aliasing calls `callsAliasEx` (distinct inserted pairs sharing the
structural-index key (5, 1)) the comparator-keyed set keeps whichever pair
arrived first, so `getOrderedContacts` is not insertion-order independent
either — the amended claim's key-determinism hypothesis is forced. -/
theorem getOrderedContacts_not_canonical :
    (¬ ∀ p ∈ (buildCL callsDirEx).getOrderedContacts,
        p.1.getResidueIndex ≤ p.2.getResidueIndex) ∧
    List.Perm callsAliasEx2 callsAliasEx ∧
    (buildCL callsAliasEx2).getOrderedContacts ≠
      (buildCL callsAliasEx).getOrderedContacts :=
  ⟨by decide, by decide, by decide⟩

/-- C2 amended: for contact lists built by any call sequence whose inserted
pairs are determined by their structural-index keys, `getOrderedContacts`
is strictly sorted by `contComp` (ascending first index, ties by the second
index), contains exactly the pairs the calls inserted — a pair is returned
if and only if some call inserted it, canonicalized for non-directional
calls, in declared order for directional ones — and is independent of the
order in which the contacts were added. -/
theorem getOrderedContacts_sorted_of_key_injective
    (calls calls₂ : List AddCall)
    (hfun : ∀ c₁ ∈ calls, ∀ c₂ ∈ calls,
      pairKey (insertedPair c₁) = pairKey (insertedPair c₂) →
      insertedPair c₁ = insertedPair c₂)
    (hperm : List.Perm calls₂ calls) :
    List.Pairwise ltPair (buildCL calls).getOrderedContacts ∧
    (∀ p, p ∈ (buildCL calls).getOrderedContacts ↔ ∃ c ∈ calls, p = insertedPair c) ∧
    (∀ c ∈ calls, c.directional = false →
      (insertedPair c).1.getResidueIndex ≤ (insertedPair c).2.getResidueIndex) ∧
    (buildCL calls₂).getOrderedContacts = (buildCL calls).getOrderedContacts := by
  have hbuild : ∀ cs : List AddCall, (buildCL cs).getOrderedContacts =
      cs.foldl (fun l c => setInsert (insertedPair c) l) [] := by
    intro cs
    rw [buildCL, contactList.getOrderedContacts, orderedContacts_foldl]
    rfl
  have hmemIff : ∀ (cs : List AddCall),
      (∀ c₁ ∈ cs, ∀ c₂ ∈ cs,
        pairKey (insertedPair c₁) = pairKey (insertedPair c₂) →
        insertedPair c₁ = insertedPair c₂) →
      ∀ x, x ∈ (buildCL cs).getOrderedContacts ↔ x ∈ cs.map insertedPair := by
    intro cs hf x
    rw [hbuild cs]
    have h := mem_ocFold cs [] (List.Pairwise.nil) ?_ x
    · rw [h]
      simp
    · intro a b ha hb hk
      rcases ha with ha | ha
      · exact absurd ha (List.not_mem_nil a)
      · rcases hb with hb | hb
        · exact absurd hb (List.not_mem_nil b)
        · rcases List.mem_map.mp ha with ⟨c₁, hc₁, he₁⟩
          rcases List.mem_map.mp hb with ⟨c₂, hc₂, he₂⟩
          rw [← he₁, ← he₂]
          exact hf c₁ hc₁ c₂ hc₂ (by rw [he₁, he₂]; exact hk)
  have hsorted : ∀ cs : List AddCall,
      List.Pairwise ltPair (buildCL cs).getOrderedContacts := by
    intro cs
    rw [hbuild cs]
    exact sorted_ocFold cs [] List.Pairwise.nil
  have hfun₂ : ∀ c₁ ∈ calls₂, ∀ c₂ ∈ calls₂,
      pairKey (insertedPair c₁) = pairKey (insertedPair c₂) →
      insertedPair c₁ = insertedPair c₂ := by
    intro c₁ h₁ c₂ h₂
    exact hfun c₁ (hperm.mem_iff.mp h₁) c₂ (hperm.mem_iff.mp h₂)
  refine ⟨hsorted calls, ?_, ?_, ?_⟩
  · intro p
    rw [hmemIff calls hfun p, List.mem_map]
    constructor
    · rintro ⟨c, hc, he⟩
      exact ⟨c, hc, he.symm⟩
    · rintro ⟨c, hc, he⟩
      exact ⟨c, hc, he.symm⟩
  · intro c _ hdir
    unfold insertedPair
    rw [hdir]
    by_cases h : decide (c.dst.getResidueIndex < c.src.getResidueIndex) = true
    · rw [if_pos (by rw [h]; rfl)]
      exact le_of_lt (of_decide_eq_true h)
    · rw [if_neg (by simp [h])]
      exact le_of_not_lt (of_decide_eq_false (Bool.eq_false_iff.mpr h))
  · refine sorted_eq_of_mem_iff (hsorted calls₂) (hsorted calls) ?_
    intro x
    rw [hmemIff calls₂ hfun₂ x, hmemIff calls hfun x]
    exact (hperm.map insertedPair).mem_iff

/-- C2 witness: the amended theorem applied to the two-call sequence
`callsEx` and its permutation `callsEx2`. -/
theorem getOrderedContacts_sorted_of_key_injective_witness :
    List.Pairwise ltPair (buildCL callsEx).getOrderedContacts ∧
    (∀ p, p ∈ (buildCL callsEx).getOrderedContacts ↔ ∃ c ∈ callsEx, p = insertedPair c) ∧
    (∀ c ∈ callsEx, c.directional = false →
      (insertedPair c).1.getResidueIndex ≤ (insertedPair c).2.getResidueIndex) ∧
    (buildCL callsEx2).getOrderedContacts = (buildCL callsEx).getOrderedContacts :=
  getOrderedContacts_sorted_of_key_injective callsEx callsEx2 (by decide) (by decide)

/-! ## C4/C5: the spatial grid returns exactly the points in the query
shell, independently of the bucket count. -/

theorem bucketIdx_mono (lo hi : ℚ) (N : Nat) (hlh : lo ≤ hi) {v w : ℚ}
    (hvw : v ≤ w) : bucketIdx lo hi N v ≤ bucketIdx lo hi N w := by
  unfold bucketIdx
  have hbw : 0 ≤ (hi - lo) / (N : ℚ) := div_nonneg (by linarith) (Nat.cast_nonneg N)
  have hdiv : (v - lo) / ((hi - lo) / (N : ℚ)) ≤ (w - lo) / ((hi - lo) / (N : ℚ)) :=
    div_le_div_of_nonneg_right (by linarith) hbw
  exact max_le_max (le_refl 0) (min_le_min (le_refl _) (Int.floor_mono hdiv))

theorem listGet_mem {α : Type} :
    ∀ (l : List α) (j : Nat) (a : α), listGet l j = some a → a ∈ l := by
  intro l
  induction l with
  | nil => intro j a h; cases h
  | cons b l ih =>
    intro j a h
    cases j with
    | zero =>
      rw [listGet] at h
      injection h with h
      exact h ▸ List.mem_cons_self b l
    | succ j => exact List.mem_cons.mpr (Or.inr (ih j a h))

theorem mem_withIndex {α : Type} (l : List α) :
    ∀ (i n : Nat) (a : α),
    (n, a) ∈ withIndex i l ↔ ∃ j, n = i + j ∧ listGet l j = some a := by
  induction l with
  | nil =>
    intro i n a
    constructor
    · intro h; cases h
    · rintro ⟨j, -, hg⟩; cases hg
  | cons b l ih =>
    intro i n a
    rw [withIndex, List.mem_cons]
    constructor
    · rintro (h | h)
      · obtain ⟨h1, h2⟩ := Prod.mk.injEq .. |>.mp h
        exact ⟨0, by omega, by rw [h2]; rfl⟩
      · rcases (ih (i + 1) n a).mp h with ⟨j, hj, hg⟩
        exact ⟨j + 1, by omega, hg⟩
    · rintro ⟨j, hj, hg⟩
      cases j with
      | zero =>
        rw [listGet] at hg
        injection hg with hg
        exact Or.inl (by rw [hg]; exact Prod.ext_iff.mpr ⟨by omega, rfl⟩)
      | succ j =>
        exact Or.inr ((ih (i + 1) n a).mpr ⟨j, by omega, hg⟩)

theorem filterMap_congr_mem {α β : Type} (f g : α → Option β) :
    ∀ l : List α, (∀ a ∈ l, f a = g a) → l.filterMap f = l.filterMap g := by
  intro l
  induction l with
  | nil => intro _; rfl
  | cons a l ih =>
    intro h
    rw [List.filterMap_cons, List.filterMap_cons, h a (List.mem_cons_self a l),
      ih fun b hb => h b (List.mem_cons.mpr (Or.inr hb))]

theorem bucket_covers {ps : ProximitySearch} {c : Point3} {dmax : ℚ}
    {p : Point3} (hgrid : ps.xlo ≤ ps.xhi ∧ ps.ylo ≤ ps.yhi ∧ ps.zlo ≤ ps.zhi)
    (hd : 0 ≤ dmax) (hdist : dist2 p c ≤ dmax ^ 2) :
    bucketInRange (ps.pointBucket (queryLo c dmax)) (ps.pointBucket (queryHi c dmax))
      (ps.pointBucket p) := by
  have hx1 : c.1 - dmax ≤ p.1 ∧ p.1 ≤ c.1 + dmax := by
    unfold dist2 at hdist
    constructor <;>
      nlinarith [sq_nonneg (p.2.1 - c.2.1), sq_nonneg (p.2.2 - c.2.2),
        sq_nonneg (p.1 - c.1 + dmax), sq_nonneg (p.1 - c.1 - dmax)]
  have hx2 : c.2.1 - dmax ≤ p.2.1 ∧ p.2.1 ≤ c.2.1 + dmax := by
    unfold dist2 at hdist
    constructor <;>
      nlinarith [sq_nonneg (p.1 - c.1), sq_nonneg (p.2.2 - c.2.2),
        sq_nonneg (p.2.1 - c.2.1 + dmax), sq_nonneg (p.2.1 - c.2.1 - dmax)]
  have hx3 : c.2.2 - dmax ≤ p.2.2 ∧ p.2.2 ≤ c.2.2 + dmax := by
    unfold dist2 at hdist
    constructor <;>
      nlinarith [sq_nonneg (p.1 - c.1), sq_nonneg (p.2.1 - c.2.1),
        sq_nonneg (p.2.2 - c.2.2 + dmax), sq_nonneg (p.2.2 - c.2.2 - dmax)]
  unfold bucketInRange ProximitySearch.pointBucket queryLo queryHi
  refine ⟨bucketIdx_mono _ _ _ hgrid.1 hx1.1, bucketIdx_mono _ _ _ hgrid.1 hx1.2,
    bucketIdx_mono _ _ _ hgrid.2.1 hx2.1, bucketIdx_mono _ _ _ hgrid.2.1 hx2.2,
    bucketIdx_mono _ _ _ hgrid.2.2 hx3.1, bucketIdx_mono _ _ _ hgrid.2.2 hx3.2⟩

theorem pointsWithin_eq_bruteWithin (ps : ProximitySearch) (c : Point3)
    (dmin dmax : ℚ)
    (hgrid : ps.xlo ≤ ps.xhi ∧ ps.ylo ≤ ps.yhi ∧ ps.zlo ≤ ps.zhi)
    (hd : 0 ≤ dmax) :
    ps.pointsWithin c dmin dmax = bruteWithin ps c dmin dmax := by
  unfold ProximitySearch.pointsWithin bruteWithin
  refine filterMap_congr_mem _ _ _ ?_
  intro e _
  by_cases hdist : dmin ^ 2 ≤ dist2 e.2 c ∧ dist2 e.2 c ≤ dmax ^ 2
  · rw [if_pos ⟨bucket_covers hgrid hd hdist.2, hdist⟩, if_pos hdist]
  · rw [if_neg fun hcond => hdist hcond.2, if_neg hdist]

theorem mem_bruteWithin (ps : ProximitySearch) (c : Point3) (dmin dmax : ℚ)
    (n : Nat) :
    n ∈ bruteWithin ps c dmin dmax ↔
    ∃ p, listGet ps.pointList n = some p ∧
      dmin ^ 2 ≤ dist2 p c ∧ dist2 p c ≤ dmax ^ 2 := by
  unfold bruteWithin
  rw [List.mem_filterMap]
  constructor
  · rintro ⟨e, he, hcond⟩
    by_cases hc : dmin ^ 2 ≤ dist2 e.2 c ∧ dist2 e.2 c ≤ dmax ^ 2
    · rw [if_pos hc] at hcond
      injection hcond with h1
      obtain ⟨i, p⟩ := e
      rcases (mem_withIndex ps.pointList 0 i p).mp he with ⟨j, hj, hg⟩
      have hn : i = n := h1
      have hjn : j = n := by omega
      exact ⟨p, hjn ▸ hg, hc⟩
    · rw [if_neg hc] at hcond
      cases hcond
  · rintro ⟨p, hp, hc⟩
    exact ⟨(n, p), (mem_withIndex ps.pointList 0 n p).mpr ⟨n, by omega, hp⟩,
      by rw [if_pos hc]⟩

/-- C4: for non-negative bounds with the grid extents well formed,
`pointsWithin(c, dmin, dmax)` returns exactly the indices of inserted
points whose Euclidean distance to `c` lies in the closed interval
`[dmin, dmax]` (stated on squared distances, equivalent for non-negative
bounds); in particular, a point stored at exactly `c` is returned by
`pointsWithin(c, 0, r)` for every `r ≥ 0`, and `pointsWithin(c, 0, r)` is
empty whenever `r` is smaller than the distance from `c` to every inserted
point. -/
theorem pointsWithin_exact (ps : ProximitySearch) (c : Point3)
    (hgrid : ps.xlo ≤ ps.xhi ∧ ps.ylo ≤ ps.yhi ∧ ps.zlo ≤ ps.zhi) :
    (∀ dmin dmax n, 0 ≤ dmax →
      (n ∈ ps.pointsWithin c dmin dmax ↔
        ∃ p, listGet ps.pointList n = some p ∧
          dmin ^ 2 ≤ dist2 p c ∧ dist2 p c ≤ dmax ^ 2)) ∧
    (∀ r n, 0 ≤ r → listGet ps.pointList n = some c →
      n ∈ ps.pointsWithin c 0 r) ∧
    (∀ r, 0 ≤ r → (∀ p ∈ ps.pointList, r ^ 2 < dist2 p c) →
      ps.pointsWithin c 0 r = []) := by
  have hmain : ∀ dmin dmax n, 0 ≤ dmax →
      (n ∈ ps.pointsWithin c dmin dmax ↔
        ∃ p, listGet ps.pointList n = some p ∧
          dmin ^ 2 ≤ dist2 p c ∧ dist2 p c ≤ dmax ^ 2) := by
    intro dmin dmax n hdm
    rw [pointsWithin_eq_bruteWithin ps c dmin dmax hgrid hdm, mem_bruteWithin]
  refine ⟨hmain, ?_, ?_⟩
  · intro r n hr hp
    have h0 : dist2 c c = 0 := by unfold dist2; ring
    refine (hmain 0 r n hr).mpr ⟨c, hp, ?_, ?_⟩
    · rw [h0]; norm_num
    · rw [h0]; exact sq_nonneg r
  · intro r hr hfar
    rw [pointsWithin_eq_bruteWithin ps c 0 r hgrid hr]
    unfold bruteWithin
    rw [List.filterMap_eq_nil_iff]
    intro e he
    rw [if_neg]
    rintro ⟨-, hle⟩
    obtain ⟨i, p⟩ := e
    rcases (mem_withIndex ps.pointList 0 i p).mp he with ⟨j, -, hg⟩
    exact absurd hle (not_le.mpr (hfar p (listGet_mem ps.pointList j p hg)))

/-- C4 witness: the characterization applied to the concrete grid
`psGridEx 20`, whose points are the origin and `(3,4,0)`, queried at the
origin. -/
theorem pointsWithin_exact_witness :
    (∀ dmin dmax n, 0 ≤ dmax →
      (n ∈ (psGridEx 20).pointsWithin cEx dmin dmax ↔
        ∃ p, listGet (psGridEx 20).pointList n = some p ∧
          dmin ^ 2 ≤ dist2 p cEx ∧ dist2 p cEx ≤ dmax ^ 2)) ∧
    (∀ r n, 0 ≤ r → listGet (psGridEx 20).pointList n = some cEx →
      n ∈ (psGridEx 20).pointsWithin cEx 0 r) ∧
    (∀ r, 0 ≤ r → (∀ p ∈ (psGridEx 20).pointList, r ^ 2 < dist2 p cEx) →
      (psGridEx 20).pointsWithin cEx 0 r = []) :=
  pointsWithin_exact (psGridEx 20) cEx ⟨by decide, by decide, by decide⟩

/-- C5: over the same inserted points and grid extents, `pointsWithin` with
bucket count `N = 1` returns exactly the same result as with any other
bucket count `n` — the bucket count never changes the result set. -/
theorem pointsWithin_bucket_invariant (xlo ylo zlo xhi yhi zhi : ℚ)
    (pts : List Point3) (tags : List Int) (n : Nat) (c : Point3)
    (dmin dmax : ℚ) (hx : xlo ≤ xhi) (hy : ylo ≤ yhi) (hz : zlo ≤ zhi)
    (hd : 0 ≤ dmax) :
    (ProximitySearch.mk xlo ylo zlo xhi yhi zhi 1 pts tags).pointsWithin c dmin dmax =
    (ProximitySearch.mk xlo ylo zlo xhi yhi zhi n pts tags).pointsWithin c dmin dmax := by
  rw [pointsWithin_eq_bruteWithin _ c dmin dmax ⟨hx, hy, hz⟩ hd,
    pointsWithin_eq_bruteWithin _ c dmin dmax ⟨hx, hy, hz⟩ hd]
  rfl

/-- C5 witness: the equivalence applied to the concrete grid contents of
`psGridEx` with bucket counts 1 and 20. -/
theorem pointsWithin_bucket_invariant_witness :
    (psGridEx 1).pointsWithin cEx 0 5 = (psGridEx 20).pointsWithin cEx 0 5 :=
  pointsWithin_bucket_invariant 0 0 0 10 10 10 [(0, 0, 0), (3, 4, 0)] [0, 1] 20
    cEx 0 5 (by decide) (by decide) (by decide) (by decide)

end Mosaist
